import Mathlib

/-!
Verification of the S34-Performance-RAG ingestion/retrieval core.

Each Python source function used by the claims is translated into an
executable Lean definition over `Nat`/`Int`/`List Char`/`String`:

* `app/Services/chunking.py`   → `iter_chunks`, `chunk_text`
* `app/Routers/ingest.py`      → `hash_row` (`_hash_row`), `ingest_rows`
* `app/rag/vectorstore.py`     → `rag_search_guard` (validation prefix)
* `app/Routers/search.py`      → `search_guard` (query validation prefix)
* `app/Routers/chat.py`        → `join_context` (`_join_context`)

A Python `str` is modelled as a `List Char` (sequence of Unicode code
points) or a Lean `String` where convenient; Python `int` is `Int`;
32-bit words inside SHA-256 are `Nat` reduced modulo `2 ^ 32`.
-/

set_option maxHeartbeats 1000000
set_option linter.unusedVariables false

namespace S34

/-! ## Chunker — `app/Services/chunking.py`, `iter_chunks` / `chunk_text`

The generator is modelled as a function materialising the whole output
list (as `chunk_text` does); a raised `ValueError` becomes `.error`.
-/

/-- The exact message of the `ValueError` raised by `iter_chunks`. -/
def invalidParamsMsg : String :=
  "Invalid chunking parameters: require chunk_size > 0 and 0 <= overlap < chunk_size."

/-- The `while start < n` loop of `iter_chunks`, including the defensive
`if not chunk: break` branch.  `cs` is `chunk_size`, `st` is `step`
(both already converted to `Nat`; the loop is only entered with
`step > 0`, which also makes it terminate). -/
def chunkLoop (text : List Char) (cs st : Nat) (hst : 0 < st) (idx start : Nat) :
    List (Nat × List Char) :=
  if h : start < text.length then
    let chunk := (text.drop start).take cs
    if chunk = [] then []
    else (idx, chunk) :: chunkLoop text cs st hst (idx + 1) (start + st)
  else []
termination_by text.length - start
decreasing_by omega

/-- `iter_chunks(text, chunk_size, overlap)` from
`app/Services/chunking.py`, with the source's exact control flow:
the `if not text: return` short-circuit comes first, then parameter
validation, then the one-window fast path, then the sliding loop. -/
def iter_chunks (text : List Char) (chunk_size overlap : Int) :
    Except String (List (Nat × List Char)) :=
  if text = [] then .ok []
  else if hv : chunk_size ≤ 0 ∨ overlap < 0 ∨ chunk_size ≤ overlap then
    .error invalidParamsMsg
  else if (text.length : Int) ≤ chunk_size then .ok [(0, text)]
  else .ok (chunkLoop text chunk_size.toNat (chunk_size - overlap).toNat (by omega) 0 0)

/-- `chunk_text` materialises `iter_chunks` (already materialised here). -/
def chunk_text (text : List Char) (chunk_size overlap : Int) :
    Except String (List (Nat × List Char)) :=
  iter_chunks text chunk_size overlap

/-- The chunking step of `ingest_text` (`app/Routers/ingest.py`): chunk
with the fixed parameters 1000/150 and raise `"No chunks produced from
content."` when the chunk list is empty. -/
def ingest_text_chunks (content : List Char) :
    Except String (List (Nat × List Char)) :=
  match chunk_text content 1000 150 with
  | .error e => .error e
  | .ok [] => .error "No chunks produced from content."
  | .ok cs => .ok cs

/-! ### Chunker lemmas -/

theorem chunkLoop_eq_nil (text : List Char) (cs st : Nat) (hst : 0 < st) (idx start : Nat)
    (h : ¬ start < text.length) : chunkLoop text cs st hst idx start = [] := by
  rw [chunkLoop, dif_neg h]

theorem chunkLoop_eq_cons (text : List Char) (cs st : Nat) (hst : 0 < st) (idx start : Nat)
    (h : start < text.length) (hchunk : (text.drop start).take cs ≠ []) :
    chunkLoop text cs st hst idx start =
      (idx, (text.drop start).take cs) :: chunkLoop text cs st hst (idx + 1) (start + st) := by
  rw [chunkLoop, dif_pos h]
  exact if_neg hchunk

/-- The window substring is non-empty whenever the start offset is in
range and `chunk_size` is positive. -/
theorem chunk_ne_nil (text : List Char) (cs start : Nat) (hcs : 0 < cs)
    (h : start < text.length) : (text.drop start).take cs ≠ [] := by
  intro hnil
  have h2 : ((text.drop start).take cs).length = min cs (text.length - start) := by
    rw [List.length_take, List.length_drop]
  rw [hnil] at h2
  simp at h2
  omega

/-- Full characterisation of the sliding-window loop: the window `j`
(counting from the loop entry) exists iff its start offset is below the
text length, and it holds the substring starting at that offset. -/
theorem chunkLoop_spec (text : List Char) (cs st : Nat) (hst : 0 < st) (hcs : 0 < cs) :
    ∀ start idx,
      (∀ j : Nat,
        j < (chunkLoop text cs st hst idx start).length ↔ start + j * st < text.length) ∧
      (∀ j (h : j < (chunkLoop text cs st hst idx start).length),
        (chunkLoop text cs st hst idx start).get ⟨j, h⟩ =
          (idx + j, (text.drop (start + j * st)).take cs)) := by
  have key : ∀ fuel start idx, text.length - start ≤ fuel →
      (∀ j : Nat,
        j < (chunkLoop text cs st hst idx start).length ↔ start + j * st < text.length) ∧
      (∀ j (h : j < (chunkLoop text cs st hst idx start).length),
        (chunkLoop text cs st hst idx start).get ⟨j, h⟩ =
          (idx + j, (text.drop (start + j * st)).take cs)) := by
    intro fuel
    induction fuel with
    | zero =>
      intro start idx hb
      have hge : ¬ start < text.length := by omega
      rw [chunkLoop_eq_nil text cs st hst idx start hge]
      constructor
      · intro j
        simp only [List.length_nil]
        omega
      · intro j h
        simp at h
    | succ fuel ih =>
      intro start idx hb
      by_cases h : start < text.length
      · have hchunk := chunk_ne_nil text cs start hcs h
        rw [chunkLoop_eq_cons text cs st hst idx start h hchunk]
        have ihr := ih (start + st) (idx + 1) (by omega)
        constructor
        · intro j
          cases j with
          | zero =>
            simp only [List.length_cons]
            omega
          | succ jj =>
            simp only [List.length_cons, Nat.succ_lt_succ_iff]
            rw [(ihr.1 jj)]
            have : (jj + 1) * st = jj * st + st := by ring
            omega
        · intro j hj
          cases j with
          | zero =>
            simp
          | succ jj =>
            have hjj : jj < (chunkLoop text cs st hst (idx + 1) (start + st)).length := by
              simpa [Nat.succ_lt_succ_iff] using hj
            have hgj := ihr.2 jj hjj
            simp only [List.get_cons_succ]
            rw [hgj]
            have e1 : idx + 1 + jj = idx + (jj + 1) := by ring
            have e2 : start + st + jj * st = start + (jj + 1) * st := by ring
            rw [e1, e2]
      · rw [chunkLoop_eq_nil text cs st hst idx start h]
        constructor
        · intro j
          simp only [List.length_nil]
          omega
        · intro j hj
          simp at hj
  intro start idx
  exact key (text.length - start) start idx le_rfl

/-- C4 (confirmed): for a text longer than `chunk_size` and valid
parameters, the emitted windows are exactly the substrings
`[j·step, j·step + chunk_size)` with `step = chunk_size − overlap`,
emitted while the start offset is below the text length and indexed
consecutively from 0. -/
theorem chunker_window_placement (text : List Char) (chunk_size overlap : Int)
    (hcs : 0 < chunk_size) (hov0 : 0 ≤ overlap) (hov : overlap < chunk_size)
    (hlen : chunk_size < (text.length : Int)) :
    ∃ l, iter_chunks text chunk_size overlap = .ok l ∧
      (∀ j : Nat, j < l.length ↔ j * (chunk_size - overlap).toNat < text.length) ∧
      (∀ j (h : j < l.length),
        l.get ⟨j, h⟩ =
          (j, (text.drop (j * (chunk_size - overlap).toNat)).take chunk_size.toNat)) := by
  have hne : text ≠ [] := by
    intro hnil
    rw [hnil] at hlen
    simp at hlen
    omega
  have hval : ¬ (chunk_size ≤ 0 ∨ overlap < 0 ∨ chunk_size ≤ overlap) := by omega
  have hbig : ¬ ((text.length : Int) ≤ chunk_size) := by omega
  have hstpos : 0 < (chunk_size - overlap).toNat := by omega
  have hcspos : 0 < chunk_size.toNat := by omega
  refine ⟨chunkLoop text chunk_size.toNat (chunk_size - overlap).toNat hstpos 0 0, ?_, ?_, ?_⟩
  · rw [iter_chunks, if_neg hne, dif_neg hval, if_neg hbig]
  · intro j
    have := (chunkLoop_spec text chunk_size.toNat (chunk_size - overlap).toNat hstpos hcspos 0 0).1 j
    simpa using this
  · intro j h
    have := (chunkLoop_spec text chunk_size.toNat (chunk_size - overlap).toNat hstpos hcspos 0 0).2 j h
    simpa using this

/-- Witness for C4, instantiating the spec scenario: 2500 characters,
`chunk_size = 1000`, `overlap = 150` (step 850). -/
theorem chunker_window_placement_witness :
    ∃ l, iter_chunks (List.replicate 2500 'A') 1000 150 = .ok l ∧
      (∀ j : Nat, j < l.length ↔ j * 850 < 2500) ∧
      (∀ j (h : j < l.length),
        l.get ⟨j, h⟩ = (j, ((List.replicate 2500 'A').drop (j * 850)).take 1000)) := by
  have h := chunker_window_placement (List.replicate 2500 'A') 1000 150
    (by norm_num) (by norm_num) (by norm_num)
    (by rw [List.length_replicate]; norm_num)
  have e1 : ((1000 : Int) - 150).toNat = 850 := by decide
  have e2 : (1000 : Int).toNat = 1000 := by decide
  simp only [List.length_replicate, e1, e2] at h
  exact h

/-- C6 counterexample: with empty text and invalid parameters
(`chunk_size = 0`), `iter_chunks` returns successfully with an empty
chunk list — the `if not text: return` short-circuit runs before the
parameter validation, so no invalid-parameter error is raised. -/
theorem chunker_validation_skipped_on_empty_text :
    iter_chunks [] 0 0 = .ok [] := rfl

/-- C6 amended: for every NON-empty text, `chunk_size ≤ 0` or `overlap`
outside `[0, chunk_size)` fails with the invalid-parameter error before
producing any output pair; the empty text instead yields an empty chunk
list without an error, for any parameters. -/
theorem chunker_param_validation (text : List Char) (chunk_size overlap : Int)
    (hne : text ≠ [])
    (hbad : chunk_size ≤ 0 ∨ overlap < 0 ∨ chunk_size ≤ overlap) :
    iter_chunks text chunk_size overlap = .error invalidParamsMsg := by
  rw [iter_chunks, if_neg hne, dif_pos hbad]

/-- Witness for the amended C6. -/
theorem chunker_param_validation_witness :
    ['a'] ≠ ([] : List Char) ∧ iter_chunks ['a'] 0 0 = .error invalidParamsMsg :=
  ⟨by decide, chunker_param_validation ['a'] 0 0 (by decide) (Or.inl (by decide))⟩

/-- C8 (confirmed): a non-empty text with valid parameters always yields
at least one chunk; consequently `ingest_text`'s no-content branch
(raised when chunking with the fixed parameters 1000/150 returns no
chunks) can never fire for non-empty content. -/
theorem chunker_nonempty_output (text : List Char) (chunk_size overlap : Int)
    (hne : text ≠ []) (hcs : 0 < chunk_size) (hov0 : 0 ≤ overlap) (hov : overlap < chunk_size) :
    (∃ l, chunk_text text chunk_size overlap = .ok l ∧ l ≠ []) ∧
    (∃ l, ingest_text_chunks text = .ok l ∧ l ≠ []) := by
  have main : ∀ cs ov : Int, 0 < cs → 0 ≤ ov → ov < cs →
      ∃ l, chunk_text text cs ov = .ok l ∧ l ≠ [] := by
    intro cs ov h1 h2 h3
    have hval : ¬ (cs ≤ 0 ∨ ov < 0 ∨ cs ≤ ov) := by omega
    by_cases hfit : (text.length : Int) ≤ cs
    · refine ⟨[(0, text)], ?_, by simp⟩
      rw [chunk_text, iter_chunks, if_neg hne, dif_neg hval, if_pos hfit]
    · have hstpos : 0 < (cs - ov).toNat := by omega
      have hcspos : 0 < cs.toNat := by omega
      refine ⟨chunkLoop text cs.toNat (cs - ov).toNat hstpos 0 0, ?_, ?_⟩
      · rw [chunk_text, iter_chunks, if_neg hne, dif_neg hval, if_neg hfit]
      · have hl : text.length ≠ 0 := by
          intro h0
          exact hne (List.eq_nil_of_length_eq_zero h0)
        have := (chunkLoop_spec text cs.toNat (cs - ov).toNat hstpos hcspos 0 0).1 0
        intro hnil
        rw [hnil] at this
        exact absurd (this.mpr (by omega)) (by simp)
  refine ⟨main chunk_size overlap hcs hov0 hov, ?_⟩
  obtain ⟨l, hok, hnil⟩ := main 1000 150 (by norm_num) (by norm_num) (by norm_num)
  refine ⟨l, ?_, hnil⟩
  rw [ingest_text_chunks, hok]
  cases l with
  | nil => exact absurd rfl hnil
  | cons a t => rfl

/-- Witness for C8. -/
theorem chunker_nonempty_output_witness :
    (∃ l, chunk_text ['x'] 10 2 = .ok l ∧ l ≠ []) ∧
    (∃ l, ingest_text_chunks ['x'] = .ok l ∧ l ≠ []) :=
  chunker_nonempty_output ['x'] 10 2 (by decide) (by decide) (by decide) (by decide)

/-- C9 (confirmed): with valid parameters, every emitted `(index, chunk)`
pair has a non-empty chunk of length at most `chunk_size`, and the
emitted indices are exactly `0, 1, 2, …` in emission order. -/
theorem chunker_chunk_invariants (text : List Char) (chunk_size overlap : Int)
    (hcs : 0 < chunk_size) (hov0 : 0 ≤ overlap) (hov : overlap < chunk_size)
    (l : List (Nat × List Char)) (hok : iter_chunks text chunk_size overlap = .ok l) :
    (∀ p ∈ l, p.2 ≠ [] ∧ p.2.length ≤ chunk_size.toNat) ∧
    l.map Prod.fst = List.range l.length := by
  have hval : ¬ (chunk_size ≤ 0 ∨ overlap < 0 ∨ chunk_size ≤ overlap) := by omega
  by_cases hne : text = []
  · rw [iter_chunks, if_pos hne] at hok
    cases hok
    simp
  · by_cases hfit : (text.length : Int) ≤ chunk_size
    · rw [iter_chunks, if_neg hne, dif_neg hval, if_pos hfit] at hok
      cases hok
      constructor
      · intro p hp
        simp only [List.mem_singleton] at hp
        subst hp
        refine ⟨hne, ?_⟩
        show text.length ≤ chunk_size.toNat
        omega
      · rfl
    · rw [iter_chunks, if_neg hne, dif_neg hval, if_neg hfit] at hok
      cases hok
      have hstpos : 0 < (chunk_size - overlap).toNat := by omega
      have hcspos : 0 < chunk_size.toNat := by omega
      have hspec := chunkLoop_spec text chunk_size.toNat (chunk_size - overlap).toNat
        hstpos hcspos 0 0
      set L := chunkLoop text chunk_size.toNat (chunk_size - overlap).toNat hstpos 0 0 with hL
      constructor
      · intro p hp
        obtain ⟨⟨j, hj⟩, hget⟩ := List.mem_iff_get.1 hp
        have hgj := hspec.2 j hj
        rw [hgj] at hget
        have hoff : 0 + j * (chunk_size - overlap).toNat < text.length := (hspec.1 j).1 hj
        have hp2 : p.2 = (text.drop (0 + j * (chunk_size - overlap).toNat)).take
            chunk_size.toNat := by rw [← hget]
        constructor
        · rw [hp2]
          exact chunk_ne_nil text chunk_size.toNat _ hcspos hoff
        · rw [hp2]
          exact List.length_take_le _ _
      · apply List.ext_get
        · simp
        · intro j h1 h2
          have hj : j < L.length := by simpa using h2
          have := hspec.2 j hj
          simp only [List.get_map]
          rw [List.get_range]
          rw [this]
          simp

/-- Witness for C9. -/
theorem chunker_chunk_invariants_witness :
    (∀ p ∈ [((0 : Nat), ['a', 'b'])], p.2 ≠ [] ∧ p.2.length ≤ (5 : Int).toNat) ∧
    [((0 : Nat), ['a', 'b'])].map Prod.fst = List.range ([((0 : Nat), ['a', 'b'])].length) :=
  chunker_chunk_invariants ['a', 'b'] 5 1 (by decide) (by decide) (by decide)
    [((0 : Nat), ['a', 'b'])] (by rfl)

/-! ## Context budget — `app/Routers/chat.py`, `_join_context`

`_join_context(snippets, max_chars=16000)` accumulates snippets under a
character budget and joins them with `"\n\n---\n\n"`.
-/

/-- The separator `sep = "\n\n---\n\n"` of `_join_context`. -/
def ctxSep : String := "\n\n---\n\n"

/-- The `for s in snippets` loop of `_join_context`: skip empty
snippets, stop (`break`) at the first snippet that would exceed the
budget, otherwise append it and charge `len(s)` plus, after the first
kept snippet, `len(sep)`. -/
def join_context_loop (max_chars : Int) (joined : List String) (used : Int) :
    List String → List String
  | [] => joined
  | s :: rest =>
    if s = "" then join_context_loop max_chars joined used rest
    else
      let add : Int := s.length + (if joined = [] then 0 else (ctxSep.length : Int))
      if used + add > max_chars then joined
      else join_context_loop max_chars (joined ++ [s]) (used + add) rest

/-- `_join_context` itself: run the loop from an empty accumulator and
join with the separator. -/
def join_context (snippets : List String) (max_chars : Int) : String :=
  String.intercalate ctxSep (join_context_loop max_chars [] 0 snippets)

/-! ### `_join_context` lemmas -/

theorem intercalate_go_append (s acc x : String) (as : List String) :
    String.intercalate.go acc s (as ++ [x]) = String.intercalate.go acc s as ++ s ++ x := by
  induction as generalizing acc with
  | nil => rfl
  | cons a t ih =>
    simp only [List.cons_append, String.intercalate.go]
    exact ih (acc ++ s ++ a)

theorem intercalate_append_singleton (sep x : String) (l : List String) (h : l ≠ []) :
    String.intercalate sep (l ++ [x]) = String.intercalate sep l ++ sep ++ x := by
  cases l with
  | nil => exact absurd rfl h
  | cons a t =>
    simp only [List.cons_append, String.intercalate]
    exact intercalate_go_append ..

/-- Loop invariant for `_join_context`: `used` is exactly the length of
the joined accumulator, the final joined string stays within budget, and
the kept snippets extend the accumulator by a prefix of the non-empty
remaining snippets. -/
theorem join_context_loop_spec (max_chars : Int) :
    ∀ (rest joined : List String) (used : Int),
      used = ((String.intercalate ctxSep joined).length : Int) →
      used ≤ max_chars →
      ((String.intercalate ctxSep
          (join_context_loop max_chars joined used rest)).length : Int) ≤ max_chars ∧
      ∃ t, join_context_loop max_chars joined used rest = joined ++ t ∧
        t <+: rest.filter (fun s => s ≠ "") := by
  intro rest
  induction rest with
  | nil =>
    intro joined used hinv hle
    refine ⟨by rw [join_context_loop]; omega, [], by simp [join_context_loop], by simp⟩
  | cons s rest ih =>
    intro joined used hinv hle
    by_cases hs : s = ""
    · rw [join_context_loop, if_pos hs]
      obtain ⟨hbound, t, happ, hpre⟩ := ih joined used hinv hle
      exact ⟨hbound, t, happ, by simpa [hs] using hpre⟩
    · rw [join_context_loop, if_neg hs]
      simp only []
      by_cases hov : used + ((s.length : Int) +
          (if joined = [] then 0 else (ctxSep.length : Int))) > max_chars
      · rw [if_pos hov]
        exact ⟨by omega, [], by simp, by simp⟩
      · rw [if_neg hov]
        have hinv' : used + ((s.length : Int) +
            (if joined = [] then 0 else (ctxSep.length : Int))) =
            ((String.intercalate ctxSep (joined ++ [s])).length : Int) := by
          by_cases hj : joined = []
          · subst hj
            have h0 : ((String.intercalate ctxSep []).length : Int) = 0 := rfl
            rw [h0] at hinv
            have h1 : String.intercalate ctxSep ([] ++ [s]) = s := rfl
            rw [h1, if_pos rfl]
            omega
          · rw [if_neg hj, intercalate_append_singleton ctxSep s joined hj]
            rw [String.length_append, String.length_append]
            push_cast
            omega
        obtain ⟨hbound, t, happ, hpre⟩ := ih (joined ++ [s]) _ hinv' (by omega)
        refine ⟨hbound, [s] ++ t, by rw [happ, List.append_assoc], ?_⟩
        rw [List.filter_cons_of_pos (by simpa using hs)]
        simpa using hpre

/-- C10 (confirmed): for `max_chars ≥ 0`, the string `_join_context`
returns has length at most `max_chars`, and its snippets are a prefix of
the non-empty input snippets in their original order. -/
theorem join_context_budget (snippets : List String) (max_chars : Int)
    (hmax : 0 ≤ max_chars) :
    ((join_context snippets max_chars).length : Int) ≤ max_chars ∧
    ∃ sel, join_context snippets max_chars = String.intercalate ctxSep sel ∧
      sel <+: snippets.filter (fun s => s ≠ "") := by
  have h := join_context_loop_spec max_chars snippets [] 0 (by simp [String.intercalate]) hmax
  obtain ⟨hbound, t, happ, hpre⟩ := h
  refine ⟨hbound, join_context_loop max_chars [] 0 snippets, rfl, ?_⟩
  rw [happ]
  simpa using hpre

/-- Witness for C10. -/
theorem join_context_budget_witness :
    (0 : Int) ≤ 10 ∧
    ((join_context ["ab", "", "cd"] 10).length : Int) ≤ 10 ∧
    ∃ sel, join_context ["ab", "", "cd"] 10 = String.intercalate ctxSep sel ∧
      sel <+: (["ab", "", "cd"].filter (fun s => s ≠ "")) :=
  ⟨by norm_num, (join_context_budget ["ab", "", "cd"] 10 (by norm_num)).1,
    (join_context_budget ["ab", "", "cd"] 10 (by norm_num)).2⟩

/-! ## Retrieval gateway validation — `app/rag/vectorstore.py` and
`app/Routers/search.py`

`rag_search` runs two guards before calling `embed_text(query)`:
`if not query or not isinstance(query, str)` (for a `str`, `not query`
is true exactly when the string is empty) and
`if not isinstance(k, int) or k <= 0`.  The `filter_json` isinstance
guard can never fire for a typed `Option` filter and is omitted.
`search` (the router) strips the query and rejects blank queries with a
422 before `rag_search` is ever called.
-/

/-- Code points Python's `str.strip()` / `str.isspace()` treat as
whitespace (the Latin-1 portion; both sides of every theorem below use
this same predicate, so the exact tail of the Unicode set is
irrelevant). -/
def pyIsSpace (c : Char) : Bool :=
  c = ' ' || c = '\t' || c = '\n' || c = '\x0b' || c = '\x0c' || c = '\r' ||
  c = '\x1c' || c = '\x1d' || c = '\x1e' || c = '\x1f' || c = '\x85' || c = '\xa0'

/-- Python `str.strip()` with no arguments: remove leading and trailing
whitespace. -/
def pyStrip (s : String) : String :=
  ⟨((s.data.dropWhile pyIsSpace).reverse.dropWhile pyIsSpace).reverse⟩

/-- Where `rag_search` stops: either one of the input guards fires with
a `ValueError`, or control reaches the `embed_text(query)` call. -/
inductive RagOutcome where
  | invalidInput (msg : String)
  | embeds
  deriving DecidableEq

/-- The validation prefix of `rag_search(query, k, filter_json)`. -/
def rag_search_guard (query : String) (k : Int) : RagOutcome :=
  if query = "" then .invalidInput "Query must be a non-empty string."
  else if k ≤ 0 then .invalidInput "k must be a positive integer."
  else .embeds

/-- The query validation of the `search` router endpoint: strip `q`,
and answer 422 `"Query cannot be blank."` before calling `rag_search`
when the result is empty. -/
def search_guard (q : String) : Option String :=
  if pyStrip q = "" then some "Query cannot be blank." else none

/-- C7 counterexample: the single-space query is whitespace-only, yet
`rag_search`'s own validation does not reject it — control reaches the
embedding call (`not query` is false for a non-empty string). -/
theorem rag_search_whitespace_reaches_embedding :
    (" ").data.all pyIsSpace = true ∧ (" " : String) ≠ "" ∧
    rag_search_guard " " 5 = RagOutcome.embeds := by
  refine ⟨by decide, by decide, by decide⟩

/-- C7 amended: `rag_search` itself fails before any embedding call
exactly for the empty query or `k ≤ 0`; a whitespace-only query is
instead rejected upstream by the `search` endpoint, which strips it and
answers 422 before `rag_search` (and hence any embedding call). -/
theorem rag_search_validation (q : String) (k : Int) :
    ((q = "" ∨ k ≤ 0) → ∃ m, rag_search_guard q k = .invalidInput m) ∧
    ((q ≠ "" ∧ 0 < k) → rag_search_guard q k = .embeds) ∧
    (q.data.all pyIsSpace = true → search_guard q = some "Query cannot be blank.") := by
  refine ⟨?_, ?_, ?_⟩
  · intro h
    by_cases hq : q = ""
    · exact ⟨"Query must be a non-empty string.", by rw [rag_search_guard, if_pos hq]⟩
    · have hk : k ≤ 0 := h.resolve_left hq
      exact ⟨"k must be a positive integer.",
        by rw [rag_search_guard, if_neg hq, if_pos hk]⟩
  · rintro ⟨hq, hk⟩
    rw [rag_search_guard, if_neg hq, if_neg (by omega)]
  · intro hws
    have h1 : q.data.dropWhile pyIsSpace = [] := by
      rw [List.dropWhile_eq_nil_iff]
      intro x hx
      exact List.all_eq_true.mp hws x hx
    have h2 : pyStrip q = "" := by
      rw [pyStrip, h1]
      rfl
    rw [search_guard, if_pos h2]

/-- Witness for the amended C7. -/
theorem rag_search_validation_witness :
    (∃ m, rag_search_guard "" 5 = .invalidInput m) ∧
    rag_search_guard "hi" 5 = .embeds ∧
    search_guard " " = some "Query cannot be blank." :=
  ⟨(rag_search_validation "" 5).1 (Or.inl rfl),
   (rag_search_validation "hi" 5).2.1 ⟨by decide, by decide⟩,
   (rag_search_validation " " 5).2.2 (by decide)⟩

/-! ## Row hasher — `app/Routers/ingest.py`, `_hash_row`

`_hash_row(row)` serialises the row with
`json.dumps(row, sort_keys=True, ensure_ascii=False, separators=(",", ":"))`
and hashes the UTF-8 bytes of that canonical form with SHA-256,
rendered as a lowercase hex string.

A row is a flat Python dict, modelled as an association list
`List (String × JVal)` (insertion order preserved, keys unique); values
are the JSON scalars (floats are outside the model's scope).
-/

/-- A flat JSON scalar value as found in a row. -/
inductive JVal where
  | str (s : String)
  | int (n : Int)
  | bool (b : Bool)
  | null
  deriving DecidableEq

/-- Lowercase hex digit, as used by `hexdigest()` and `\uXXXX` escapes. -/
def hexDigit (n : Nat) : Char :=
  if n < 10 then Char.ofNat (48 + n) else Char.ofNat (87 + n)

/-- `json.dumps` escaping of one character with `ensure_ascii=False`:
backslash, double quote and the C0 control characters are escaped,
everything else is passed through. -/
def jsonEscapeChar (c : Char) : List Char :=
  if c = '\\' then ['\\', '\\']
  else if c = '"' then ['\\', '"']
  else if c = '\x08' then ['\\', 'b']
  else if c = '\x0c' then ['\\', 'f']
  else if c = '\n' then ['\\', 'n']
  else if c = '\r' then ['\\', 'r']
  else if c = '\t' then ['\\', 't']
  else if c.toNat < 0x20 then
    ['\\', 'u', '0', '0', hexDigit (c.toNat / 16), hexDigit (c.toNat % 16)]
  else [c]

/-- A JSON string literal: `"` + escaped characters + `"`. -/
def jsonQuote (s : String) : List Char :=
  '"' :: (s.data.map jsonEscapeChar).flatten ++ ['"']

/-- Serialisation of one scalar value, as `json.dumps` renders it. -/
def jsonSerVal : JVal → List Char
  | .str s => jsonQuote s
  | .int n => (toString n).data
  | .bool true => "true".data
  | .bool false => "false".data
  | .null => "null".data

/-- One `"key":value` item. -/
def jsonSerItem (kv : String × JVal) : List Char :=
  jsonQuote kv.1 ++ ':' :: jsonSerVal kv.2

/-- The canonical form produced by `json.dumps(row, sort_keys=True,
ensure_ascii=False, separators=(",", ":"))`: items sorted by key
(Python compares strings by code point, as Lean's `String` order does),
joined with `,` inside `\x7b`…`\x7d` braces. -/
def canonJson (r : List (String × JVal)) : List Char :=
  let sorted := r.mergeSort (fun a b => decide (a.1 ≤ b.1))
  '\x7b' :: List.intercalate [','] (sorted.map jsonSerItem) ++ ['\x7d']

/-- UTF-8 encoding of one code point (`str.encode("utf-8")`). -/
def utf8Char (c : Char) : List Nat :=
  let n := c.toNat
  if n < 0x80 then [n]
  else if n < 0x800 then [0xC0 + n / 0x40, 0x80 + n % 0x40]
  else if n < 0x10000 then
    [0xE0 + n / 0x1000, 0x80 + (n / 0x40) % 0x40, 0x80 + n % 0x40]
  else
    [0xF0 + n / 0x40000, 0x80 + (n / 0x1000) % 0x40, 0x80 + (n / 0x40) % 0x40,
     0x80 + n % 0x40]

/-- UTF-8 encoding of a character sequence, as a byte list. -/
def utf8Encode (s : List Char) : List Nat :=
  (s.map utf8Char).flatten

/-! ### SHA-256 over `Nat` words reduced modulo `2 ^ 32` -/

/-- Truncation to a 32-bit word. -/
def w32 (x : Nat) : Nat := x % 4294967296

/-- Right rotation of a 32-bit word. -/
def rotr32 (x n : Nat) : Nat := w32 ((x >>> n) ||| (x <<< (32 - n)))

/-- `Σ₀` of FIPS 180-4 §4.1.2. -/
def capSigma0 (x : Nat) : Nat := rotr32 x 2 ^^^ (rotr32 x 13 ^^^ rotr32 x 22)

/-- `Σ₁` of FIPS 180-4 §4.1.2. -/
def capSigma1 (x : Nat) : Nat := rotr32 x 6 ^^^ (rotr32 x 11 ^^^ rotr32 x 25)

/-- `σ₀` of FIPS 180-4 §4.1.2. -/
def lowSigma0 (x : Nat) : Nat := rotr32 x 7 ^^^ (rotr32 x 18 ^^^ x >>> 3)

/-- `σ₁` of FIPS 180-4 §4.1.2. -/
def lowSigma1 (x : Nat) : Nat := rotr32 x 17 ^^^ (rotr32 x 19 ^^^ x >>> 10)

/-- The 64 SHA-256 round constants (FIPS 180-4 §4.2.2, in decimal). -/
def sha256K : List Nat :=
  [1116352408, 1899447441, 3049323471, 3921009573, 961987163,
   1508970993, 2453635748, 2870763221, 3624381080, 310598401,
   607225278, 1426881987, 1925078388, 2162078206, 2614888103,
   3248222580, 3835390401, 4022224774, 264347078, 604807628,
   770255983, 1249150122, 1555081692, 1996064986, 2554220882,
   2821834349, 2952996808, 3210313671, 3336571891, 3584528711,
   113926993, 338241895, 666307205, 773529912, 1294757372,
   1396182291, 1695183700, 1986661051, 2177026350, 2456956037,
   2730485921, 2820302411, 3259730800, 3345764771, 3516065817,
   3600352804, 4094571909, 275423344, 430227734, 506948616,
   659060556, 883997877, 958139571, 1322822218, 1537002063,
   1747873779, 1955562222, 2024104815, 2227730452, 2361852424,
   2428436474, 2756734187, 3204031479, 3329325298]

/-- Working state: eight 32-bit words. -/
structure Sha256State where
  a : Nat
  b : Nat
  c : Nat
  d : Nat
  e : Nat
  f : Nat
  g : Nat
  h : Nat
  deriving DecidableEq

/-- The SHA-256 initial hash value (FIPS 180-4 §5.3.3, in decimal). -/
def sha256Init : Sha256State :=
  ⟨1779033703, 3144134277, 1013904242, 2773480762,
   1359893119, 2600822924, 528734635, 1541459225⟩

/-- Big-endian 64-bit byte rendering of the message bit length. -/
def be64 (n : Nat) : List Nat :=
  [n / 2 ^ 56 % 256, n / 2 ^ 48 % 256, n / 2 ^ 40 % 256, n / 2 ^ 32 % 256,
   n / 2 ^ 24 % 256, n / 2 ^ 16 % 256, n / 2 ^ 8 % 256, n % 256]

/-- SHA-256 padding: append `0x80`, zero bytes to 56 mod 64, then the
bit length as 8 big-endian bytes. -/
def sha256Pad (msg : List Nat) : List Nat :=
  msg ++ 0x80 :: List.replicate ((119 - msg.length % 64) % 64) 0 ++ be64 (msg.length * 8)

/-- Group bytes into big-endian 32-bit words. -/
def bytesToWords : List Nat → List Nat
  | b0 :: b1 :: b2 :: b3 :: rest =>
    (b0 * 0x1000000 + b1 * 0x10000 + b2 * 0x100 + b3) :: bytesToWords rest
  | _ => []

/-- Split the word stream into 16-word blocks. -/
def toBlocks : List Nat → List (List Nat)
  | [] => []
  | w :: ws => ((w :: ws).take 16) :: toBlocks ((w :: ws).drop 16)
termination_by l => l.length
decreasing_by
  simp [List.length_drop]
  omega

/-- Extend a 16-word block to the 64-word message schedule (`fuel` is
the number of words still to append, 48). -/
def sha256Extend (acc : List Nat) : Nat → List Nat
  | 0 => acc
  | fuel + 1 =>
    let n := acc.length
    let w := w32 (lowSigma1 (acc.getD (n - 2) 0) + acc.getD (n - 7) 0 +
      lowSigma0 (acc.getD (n - 15) 0) + acc.getD (n - 16) 0)
    sha256Extend (acc ++ [w]) fuel

/-- One compression round. -/
def sha256Round (s : Sha256State) (wk : Nat × Nat) : Sha256State :=
  let ch := (s.e &&& s.f) ^^^ ((s.e ^^^ 0xffffffff) &&& s.g)
  let maj := (s.a &&& s.b) ^^^ (s.a &&& s.c) ^^^ (s.b &&& s.c)
  let t1 := w32 (s.h + capSigma1 s.e + ch + wk.2 + wk.1)
  let t2 := w32 (capSigma0 s.a + maj)
  ⟨w32 (t1 + t2), s.a, s.b, s.c, w32 (s.d + t1), s.e, s.f, s.g⟩

/-- Compression of one 16-word block into the state. -/
def sha256Compress (st : Sha256State) (block : List Nat) : Sha256State :=
  let ws := sha256Extend block 48
  let fin := (ws.zip sha256K).foldl sha256Round st
  ⟨w32 (st.a + fin.a), w32 (st.b + fin.b), w32 (st.c + fin.c), w32 (st.d + fin.d),
   w32 (st.e + fin.e), w32 (st.f + fin.f), w32 (st.g + fin.g), w32 (st.h + fin.h)⟩

/-- The final state after hashing a byte message. -/
def sha256Final (msg : List Nat) : Sha256State :=
  (toBlocks (bytesToWords (sha256Pad msg))).foldl sha256Compress sha256Init

/-- Eight lowercase hex digits of one 32-bit word. -/
def wordHex (w : Nat) : List Char :=
  [hexDigit (w / 16 ^ 7 % 16), hexDigit (w / 16 ^ 6 % 16), hexDigit (w / 16 ^ 5 % 16),
   hexDigit (w / 16 ^ 4 % 16), hexDigit (w / 16 ^ 3 % 16), hexDigit (w / 16 ^ 2 % 16),
   hexDigit (w / 16 % 16), hexDigit (w % 16)]

/-- `hashlib.sha256(bytes).hexdigest()`. -/
def sha256hex (msg : List Nat) : String :=
  let s := sha256Final msg
  ⟨wordHex s.a ++ wordHex s.b ++ wordHex s.c ++ wordHex s.d ++
   wordHex s.e ++ wordHex s.f ++ wordHex s.g ++ wordHex s.h⟩

/-- `_hash_row(row)` from `app/Routers/ingest.py`. -/
def hash_row (r : List (String × JVal)) : String :=
  sha256hex (utf8Encode (canonJson r))

/-! ### Row hasher lemmas -/

/-- A Python dict never repeats a key. -/
def keysNodup (r : List (String × JVal)) : Prop := (r.map Prod.fst).Nodup

instance (r : List (String × JVal)) : Decidable (keysNodup r) :=
  inferInstanceAs (Decidable (r.map Prod.fst).Nodup)

/-- All eight state words are 32-bit. -/
def stBounded (s : Sha256State) : Prop :=
  s.a < 2 ^ 32 ∧ s.b < 2 ^ 32 ∧ s.c < 2 ^ 32 ∧ s.d < 2 ^ 32 ∧
  s.e < 2 ^ 32 ∧ s.f < 2 ^ 32 ∧ s.g < 2 ^ 32 ∧ s.h < 2 ^ 32

theorem w32_lt (x : Nat) : w32 x < 2 ^ 32 := Nat.mod_lt _ (by norm_num)

theorem sha256Compress_bounded (st : Sha256State) (block : List Nat) :
    stBounded (sha256Compress st block) :=
  ⟨w32_lt _, w32_lt _, w32_lt _, w32_lt _, w32_lt _, w32_lt _, w32_lt _, w32_lt _⟩

theorem foldl_compress_bounded (bs : List (List Nat)) :
    ∀ st : Sha256State, stBounded st → stBounded (bs.foldl sha256Compress st) := by
  induction bs with
  | nil => exact fun st h => h
  | cons b bs ih =>
    intro st hs
    rw [List.foldl_cons]
    exact ih _ (sha256Compress_bounded st b)

theorem sha256Final_bounded (msg : List Nat) : stBounded (sha256Final msg) := by
  rw [sha256Final]
  refine foldl_compress_bounded _ sha256Init ?_
  refine ⟨?_, ?_, ?_, ?_, ?_, ?_, ?_, ?_⟩ <;> norm_num [sha256Init]

/-- The digest as one 256-bit number (big-endian word order). -/
def digestNat (s : Sha256State) : Nat :=
  s.a * 2 ^ 224 + s.b * 2 ^ 192 + s.c * 2 ^ 160 + s.d * 2 ^ 128 +
  s.e * 2 ^ 96 + s.f * 2 ^ 64 + s.g * 2 ^ 32 + s.h

theorem digestNat_lt (s : Sha256State) (hb : stBounded s) : digestNat s < 2 ^ 256 := by
  obtain ⟨h1, h2, h3, h4, h5, h6, h7, h8⟩ := hb
  rw [digestNat]
  omega

theorem digestNat_inj (s t : Sha256State) (hs : stBounded s) (ht : stBounded t)
    (h : digestNat s = digestNat t) : s = t := by
  obtain ⟨ha, hb, hc, hd, he, hf, hg, hh⟩ := hs
  obtain ⟨ha', hb', hc', hd', he', hf', hg', hh'⟩ := ht
  cases s
  cases t
  rw [digestNat, digestNat] at h
  simp only [Sha256State.mk.injEq]
  simp only [] at *
  omega

instance : IsAntisymm (String × JVal) (fun a b => a.1 < b.1) :=
  ⟨fun _ _ hab hba => absurd (lt_trans hab hba) (lt_irrefl _)⟩

/-- Two dicts with the same key→value content have the same key-sorted
entry list: the canonicalisation step of `_hash_row`. -/
theorem mergeSort_eq_of_content (r1 r2 : List (String × JVal))
    (h1 : keysNodup r1) (h2 : keysNodup r2) (hc : r1.toFinset = r2.toFinset) :
    r1.mergeSort (fun a b => decide (a.1 ≤ b.1)) =
    r2.mergeSort (fun a b => decide (a.1 ≤ b.1)) := by
  have hn1 : r1.Nodup := List.Nodup.of_map Prod.fst h1
  have hn2 : r2.Nodup := List.Nodup.of_map Prod.fst h2
  have hperm : List.Perm r1 r2 := List.perm_of_nodup_nodup_toFinset_eq hn1 hn2 hc
  have trans : ∀ a b c : String × JVal,
      decide (a.1 ≤ b.1) → decide (b.1 ≤ c.1) → decide (a.1 ≤ c.1) := by
    intro a b c hab hbc
    simp only [decide_eq_true_eq] at *
    exact le_trans hab hbc
  have total : ∀ a b : String × JVal,
      decide (a.1 ≤ b.1) || decide (b.1 ≤ a.1) := by
    intro a b
    simp only [Bool.or_eq_true, decide_eq_true_eq]
    exact le_total a.1 b.1
  have strictSorted : ∀ r : List (String × JVal), keysNodup r →
      (r.mergeSort (fun a b => decide (a.1 ≤ b.1))).Pairwise (fun a b => a.1 < b.1) := by
    intro r hr
    have hsorted := List.sorted_mergeSort trans total r
    have hperms : List.Perm (r.mergeSort (fun a b => decide (a.1 ≤ b.1))) r :=
      List.mergeSort_perm r _
    have hkeys : ((r.mergeSort (fun a b => decide (a.1 ≤ b.1))).map Prod.fst).Nodup :=
      (List.Perm.nodup_iff (List.Perm.map Prod.fst hperms)).mpr hr
    have hne : (r.mergeSort (fun a b => decide (a.1 ≤ b.1))).Pairwise
        (fun a b => a.1 ≠ b.1) := List.pairwise_map.mp hkeys
    have hle : (r.mergeSort (fun a b => decide (a.1 ≤ b.1))).Pairwise
        (fun a b => a.1 ≤ b.1) := hsorted.imp (fun h => by exact of_decide_eq_true h)
    exact (hle.and hne).imp (fun h => lt_of_le_of_ne h.1 h.2)
  have hp : List.Perm (r1.mergeSort (fun a b => decide (a.1 ≤ b.1)))
      (r2.mergeSort (fun a b => decide (a.1 ≤ b.1))) :=
    (List.mergeSort_perm r1 _).trans (hperm.trans (List.mergeSort_perm r2 _).symm)
  exact List.eq_of_perm_of_sorted hp (strictSorted r1 h1) (strictSorted r2 h2)

/-- C5 amended: for dicts with the same set of keys mapped to the same
values — in particular under any key reordering — `_hash_row` produces
the same fingerprint. -/
theorem hash_row_content_invariant (r1 r2 : List (String × JVal))
    (h1 : keysNodup r1) (h2 : keysNodup r2)
    (hc : r1.toFinset = r2.toFinset) : hash_row r1 = hash_row r2 := by
  rw [hash_row, hash_row, canonJson, canonJson]
  rw [mergeSort_eq_of_content r1 r2 h1 h2 hc]

/-- Witness for the amended C5: reordering two keys leaves the
fingerprint unchanged. -/
theorem hash_row_content_invariant_witness :
    keysNodup [("b", JVal.int 2), ("a", JVal.str "x")] ∧
    hash_row [("b", JVal.int 2), ("a", JVal.str "x")] =
      hash_row [("a", JVal.str "x"), ("b", JVal.int 2)] :=
  ⟨by decide, hash_row_content_invariant _ _ (by decide) (by decide) (by decide)⟩

/-- The record `\x7b"a": n\x7d`, one for every natural number. -/
def intRec (n : Nat) : List (String × JVal) := [("a", JVal.int n)]

/-- C5 counterexample (negation of the claim): `_hash_row` maps
infinitely many distinct records into the finite set of 256-bit
digests, so by the pigeonhole principle two records with different
content share a fingerprint — the "only if" direction of the claim is
false for SHA-256 in principle (no explicit collision is known). -/
theorem hash_row_not_injective :
    ∃ r1 r2 : List (String × JVal), keysNodup r1 ∧ keysNodup r2 ∧
      ¬ (hash_row r1 = hash_row r2 ↔ r1.toFinset = r2.toFinset) := by
  have hfin : ∀ n : Nat,
      digestNat (sha256Final (utf8Encode (canonJson (intRec n)))) < 2 ^ 256 :=
    fun n => digestNat_lt _ (sha256Final_bounded _)
  obtain ⟨i, j, hne, heq⟩ := Finite.exists_ne_map_eq_of_infinite
    (fun n : Nat =>
      (⟨digestNat (sha256Final (utf8Encode (canonJson (intRec n)))), hfin n⟩ : Fin (2 ^ 256)))
  have hdig : sha256Final (utf8Encode (canonJson (intRec i))) =
      sha256Final (utf8Encode (canonJson (intRec j))) := by
    apply digestNat_inj _ _ (sha256Final_bounded _) (sha256Final_bounded _)
    exact congrArg Fin.val heq
  have hhash : hash_row (intRec i) = hash_row (intRec j) := by
    simp only [hash_row, sha256hex]
    rw [hdig]
  refine ⟨intRec i, intRec j, by simp [intRec, keysNodup], by simp [intRec, keysNodup], ?_⟩
  intro hiff
  have hcontent : (intRec i).toFinset = (intRec j).toFinset := hiff.mp hhash
  simp only [intRec, List.toFinset_cons, List.toFinset_nil, insert_emptyc_eq,
    Finset.singleton_inj, Prod.mk.injEq, JVal.int.injEq, true_and] at hcontent
  exact hne (by exact_mod_cast hcontent)

/-! ## Sync engine — `app/Routers/ingest.py`, `ingest_rows`

The row store (`document_rows` rows of one dataset id) is modelled by
the list of its `row_hash` values, in storage order; `row_data` plays no
role in any claim.  `upsert_document_metadata` and
`update_document_schema` touch only the metadata table, which no claim
mentions, so the model tracks the row store plus the response fields.
-/

/-- An element of the request's `rows` list: a JSON object, or anything
else (`isinstance(row, dict)` is false). -/
inductive PyRow where
  | obj (entries : List (String × JVal))
  | nonRec
  deriving DecidableEq

/-- `row.keys()` guarded by `isinstance(row, dict)` (non-dicts
contribute nothing to the schema). -/
def PyRow.keys : PyRow → List String
  | .obj e => e.map Prod.fst
  | .nonRec => []

def PyRow.isRec : PyRow → Bool
  | .obj _ => true
  | .nonRec => false

/-- `_hash_row` of a validated row (callers only use it under an
all-records hypothesis; the non-record default is never reached). -/
def PyRow.hashOf : PyRow → String
  | .obj e => hash_row e
  | .nonRec => ""

/-- `dict.fromkeys`: first-seen order, duplicates collapsed. -/
def pyDedupAux (seen : List String) : List String → List String
  | [] => []
  | k :: ks => if k ∈ seen then pyDedupAux seen ks else k :: pyDedupAux (k :: seen) ks

def pyDedup (l : List String) : List String := pyDedupAux [] l

/-- Outcome of one `ingest_rows` call: the row store afterwards, the
`HTTPException` detail if one was raised (in which case the numeric
fields are meaningless), and the response counters. -/
structure RowsResult where
  store : List String
  error : Option String
  rows_inserted : Nat
  rows_deleted : Option Nat
  deriving DecidableEq

/-- The full-refresh branch after the initial
`DELETE FROM document_rows WHERE dataset_id = $1`: insert row by row,
validating `isinstance(row, dict)` only inside the loop. -/
def fullRefreshLoop (store : List String) (inserted : Nat) : List PyRow → RowsResult
  | [] => ⟨store, none, inserted, some 0⟩
  | .nonRec :: _ => ⟨store, some "Each row must be a JSON object.", inserted, none⟩
  | .obj e :: rest => fullRefreshLoop (store ++ [hash_row e]) (inserted + 1) rest

/-- The fingerprinting loop of the incremental branch: validate every
row and collect the incoming hashes, before anything is read or
written. -/
def hashRowsLoop : List PyRow → Except String (List String)
  | [] => .ok []
  | .nonRec :: _ => .error "Each row must be a JSON object."
  | .obj e :: rest =>
    match hashRowsLoop rest with
    | .error m => .error m
    | .ok hs => .ok (hash_row e :: hs)

/-- The incremental branch: hash all rows, read the stored fingerprint
set (dropping falsy `row_hash` values, as the source's set
comprehension does), insert the incoming rows whose hash is new and
delete the stored hashes absent from the incoming set. -/
def incrementalSync (store : List String) (rows : List PyRow) : RowsResult :=
  match hashRowsLoop rows with
  | .error m => ⟨store, some m, 0, none⟩
  | .ok incoming =>
    let existing : Finset String := (store.filter (fun h => h ≠ "")).toFinset
    let incomingS : Finset String := incoming.toFinset
    let to_insert := incoming.filter (fun h => h ∉ existing)
    let to_delete := existing \ incomingS
    ⟨store.filter (fun h => h ∉ to_delete) ++ to_insert, none,
      to_insert.length, some to_delete.card⟩

/-- `ingest_rows(body)` (row-store part): metadata upsert, schema
derivation (ordered union of keys, first-seen order), empty-schema
validation, then the full-refresh or incremental branch. -/
def ingest_rows (store : List String) (rows : List PyRow) (full_refresh : Bool) :
    RowsResult :=
  let schema_keys := pyDedup (rows.flatMap PyRow.keys)
  if schema_keys = [] then
    ⟨store, some "Rows must be JSON objects with at least one key.", 0, none⟩
  else if full_refresh then
    fullRefreshLoop [] 0 rows
  else
    incrementalSync store rows

/-! ### Sync engine lemmas -/

theorem length_mk (l : List Char) : (String.mk l).length = l.length := rfl

theorem sha256hex_length (msg : List Nat) : (sha256hex msg).length = 64 := by
  rw [sha256hex]
  simp only [length_mk, wordHex, List.length_append, List.length_cons, List.length_nil]

/-- Every fingerprint `_hash_row` produces is a 64-character hex string,
in particular never the empty (falsy) string. -/
theorem hash_row_ne_empty (r : List (String × JVal)) : hash_row r ≠ "" := by
  intro h
  have h1 := sha256hex_length (utf8Encode (canonJson r))
  rw [hash_row] at h
  rw [h] at h1
  simp at h1

theorem hashRowsLoop_ok (rows : List PyRow) (hall : ∀ r ∈ rows, r.isRec = true) :
    hashRowsLoop rows = .ok (rows.map PyRow.hashOf) := by
  induction rows with
  | nil => rfl
  | cons r rest ih =>
    cases r with
    | nonRec =>
      have := hall _ (List.mem_cons_self ..)
      simp [PyRow.isRec] at this
    | obj e =>
      rw [hashRowsLoop, ih (fun x hx => hall x (List.mem_cons_of_mem _ hx))]
      rfl

theorem hashRowsLoop_error (rows : List PyRow) (hbad : PyRow.nonRec ∈ rows) :
    ∃ m, hashRowsLoop rows = .error m := by
  induction rows with
  | nil => simp at hbad
  | cons r rest ih =>
    cases r with
    | nonRec => exact ⟨_, rfl⟩
    | obj e =>
      have hb : PyRow.nonRec ∈ rest := by simpa using hbad
      obtain ⟨m, hm⟩ := ih hb
      exact ⟨m, by rw [hashRowsLoop, hm]⟩

theorem fullRefreshLoop_ok (rows : List PyRow) (hall : ∀ r ∈ rows, r.isRec = true) :
    ∀ store inserted, fullRefreshLoop store inserted rows =
      ⟨store ++ rows.map PyRow.hashOf, none, inserted + rows.length, some 0⟩ := by
  induction rows with
  | nil =>
    intro store inserted
    simp [fullRefreshLoop]
  | cons r rest ih =>
    intro store inserted
    cases r with
    | nonRec =>
      have := hall _ (List.mem_cons_self ..)
      simp [PyRow.isRec] at this
    | obj e =>
      rw [fullRefreshLoop, ih (fun x hx => hall x (List.mem_cons_of_mem _ hx))]
      simp [PyRow.hashOf]
      omega

theorem fullRefreshLoop_error (rows : List PyRow) (hbad : PyRow.nonRec ∈ rows) :
    ∀ store inserted, (fullRefreshLoop store inserted rows).error.isSome = true := by
  induction rows with
  | nil => simp at hbad
  | cons r rest ih =>
    intro store inserted
    cases r with
    | nonRec => rfl
    | obj e =>
      have hb : PyRow.nonRec ∈ rest := by simpa using hbad
      rw [fullRefreshLoop]
      exact ih hb _ _

theorem incrementalSync_ok (store : List String) (rows : List PyRow)
    (hall : ∀ r ∈ rows, r.isRec = true) :
    incrementalSync store rows =
      ⟨store.filter (fun h => h ∉ ((store.filter (fun h => h ≠ "")).toFinset \
          (rows.map PyRow.hashOf).toFinset)) ++
        (rows.map PyRow.hashOf).filter
          (fun h => h ∉ (store.filter (fun h => h ≠ "")).toFinset),
       none,
       ((rows.map PyRow.hashOf).filter
          (fun h => h ∉ (store.filter (fun h => h ≠ "")).toFinset)).length,
       some (((store.filter (fun h => h ≠ "")).toFinset \
          (rows.map PyRow.hashOf).toFinset).card)⟩ := by
  rw [incrementalSync, hashRowsLoop_ok rows hall]

theorem ingest_rows_incremental (store : List String) (rows : List PyRow)
    (hkeys : pyDedup (rows.flatMap PyRow.keys) ≠ []) :
    ingest_rows store rows false = incrementalSync store rows := by
  rw [ingest_rows]
  simp only [if_neg hkeys, Bool.false_eq_true, if_false]

theorem ingest_rows_full (store : List String) (rows : List PyRow)
    (hkeys : pyDedup (rows.flatMap PyRow.keys) ≠ []) :
    ingest_rows store rows true = fullRefreshLoop [] 0 rows := by
  rw [ingest_rows]
  simp only [if_neg hkeys, if_true]

/-- `filter` by "not in this finset" of a duplicate-free list counts the
set difference. -/
theorem filter_not_mem_length (l : List String) (s : Finset String) (hl : l.Nodup) :
    (l.filter (fun h => h ∉ s)).length = (l.toFinset \ s).card := by
  have h2 : (l.filter (fun h => h ∉ s)).Nodup := hl.filter _
  rw [← List.toFinset_card_of_nodup h2, List.toFinset_filter, Finset.sdiff_eq_filter]
  congr 1
  exact Finset.filter_congr (fun x _ => by simp)

/-! ### C2 — full refresh -/

/-- C2 (confirmed): a full-refresh call with valid rows succeeds and
afterwards the stored fingerprint set is exactly the fingerprint set of
the input rows, `rows_inserted` counts every incoming row, and
`rows_deleted` is reported as 0 whatever was deleted. -/
theorem rows_full_refresh_spec (store : List String) (rows : List PyRow)
    (hall : ∀ r ∈ rows, r.isRec = true)
    (hkeys : pyDedup (rows.flatMap PyRow.keys) ≠ []) :
    (ingest_rows store rows true).error = none ∧
    (ingest_rows store rows true).store.toFinset = (rows.map PyRow.hashOf).toFinset ∧
    (ingest_rows store rows true).rows_inserted = rows.length ∧
    (ingest_rows store rows true).rows_deleted = some 0 := by
  rw [ingest_rows_full store rows hkeys, fullRefreshLoop_ok rows hall [] 0]
  simp

/-- Witness for C2: five incoming rows on a dataset that previously had
three (the spec scenario's shape): inserted 5, deleted reported 0. -/
theorem rows_full_refresh_spec_witness :
    (ingest_rows ["e1", "e2", "e3"]
        [PyRow.obj [("a", JVal.int 1)], PyRow.obj [("a", JVal.int 2)],
         PyRow.obj [("a", JVal.int 3)], PyRow.obj [("a", JVal.int 4)],
         PyRow.obj [("a", JVal.int 5)]] true).error = none ∧
    (ingest_rows ["e1", "e2", "e3"]
        [PyRow.obj [("a", JVal.int 1)], PyRow.obj [("a", JVal.int 2)],
         PyRow.obj [("a", JVal.int 3)], PyRow.obj [("a", JVal.int 4)],
         PyRow.obj [("a", JVal.int 5)]] true).store.toFinset =
      ([PyRow.obj [("a", JVal.int 1)], PyRow.obj [("a", JVal.int 2)],
        PyRow.obj [("a", JVal.int 3)], PyRow.obj [("a", JVal.int 4)],
        PyRow.obj [("a", JVal.int 5)]].map PyRow.hashOf).toFinset ∧
    (ingest_rows ["e1", "e2", "e3"]
        [PyRow.obj [("a", JVal.int 1)], PyRow.obj [("a", JVal.int 2)],
         PyRow.obj [("a", JVal.int 3)], PyRow.obj [("a", JVal.int 4)],
         PyRow.obj [("a", JVal.int 5)]] true).rows_inserted = 5 ∧
    (ingest_rows ["e1", "e2", "e3"]
        [PyRow.obj [("a", JVal.int 1)], PyRow.obj [("a", JVal.int 2)],
         PyRow.obj [("a", JVal.int 3)], PyRow.obj [("a", JVal.int 4)],
         PyRow.obj [("a", JVal.int 5)]] true).rows_deleted = some 0 :=
  rows_full_refresh_spec ["e1", "e2", "e3"] _ (by decide) (by decide)

/-! ### C1 — incremental sync -/

/-- C1 counterexample: with an empty store (`E = ∅`) and two identical
incoming rows (fingerprint set `I = \x7bh\x7d`, so `|I \ E| = 1`), the
incremental call reports `rows_inserted = 2`: the code counts incoming
rows with multiplicity, not distinct new fingerprints. -/
theorem incremental_inserted_counts_multiplicity :
    (ingest_rows [] [PyRow.obj [("a", JVal.int 1)], PyRow.obj [("a", JVal.int 1)]]
        false).rows_inserted = 2 ∧
    (([PyRow.obj [("a", JVal.int 1)], PyRow.obj [("a", JVal.int 1)]].map
        PyRow.hashOf).toFinset \ (([] : List String).toFinset)).card = 1 := by
  constructor
  · rw [ingest_rows_incremental _ _ (by decide),
      incrementalSync_ok _ _ (by decide)]
    simp
  · simp [PyRow.hashOf]

/-- C1 amended: for a stored fingerprint set `E` and incoming rows with
fingerprint set `I`, the incremental call succeeds, reports
`rows_deleted = |E \ I|`, reports `rows_inserted = |I \ E|` provided
the incoming fingerprints are pairwise distinct (in general it counts
incoming rows whose fingerprint is new *with multiplicity*), and a
second identical call reports 0 inserted and 0 deleted. -/
theorem rows_incremental_sync_spec (store : List String) (rows : List PyRow)
    (hstore : "" ∉ store)
    (hall : ∀ r ∈ rows, r.isRec = true)
    (hkeys : pyDedup (rows.flatMap PyRow.keys) ≠ []) :
    (ingest_rows store rows false).error = none ∧
    (ingest_rows store rows false).rows_deleted =
      some ((store.toFinset \ (rows.map PyRow.hashOf).toFinset).card) ∧
    ((rows.map PyRow.hashOf).Nodup →
      (ingest_rows store rows false).rows_inserted =
        ((rows.map PyRow.hashOf).toFinset \ store.toFinset).card) ∧
    (ingest_rows (ingest_rows store rows false).store rows false).rows_inserted = 0 ∧
    (ingest_rows (ingest_rows store rows false).store rows false).rows_deleted =
      some 0 := by
  have hfilter : store.filter (fun h => h ≠ "") = store := by
    rw [List.filter_eq_self]
    intro a ha
    simp only [decide_eq_true_eq]
    intro he
    exact hstore (he ▸ ha)
  rw [ingest_rows_incremental store rows hkeys, incrementalSync_ok store rows hall, hfilter]
  set I : Finset String := (rows.map PyRow.hashOf).toFinset with hI
  set E : Finset String := store.toFinset with hE
  set store1 : List String :=
    store.filter (fun h => h ∉ E \ I) ++
      (rows.map PyRow.hashOf).filter (fun h => h ∉ E) with hstore1
  have hmem1 : ∀ h ∈ store1, h ∈ store ∨ h ∈ rows.map PyRow.hashOf := by
    intro h hh
    rcases List.mem_append.1 hh with h1 | h2
    · exact Or.inl (List.mem_of_mem_filter h1)
    · exact Or.inr (List.mem_of_mem_filter h2)
  have hhash_ne : ∀ h ∈ rows.map PyRow.hashOf, h ≠ "" := by
    intro h hh
    obtain ⟨r, hr, hrfl⟩ := List.mem_map.1 hh
    cases r with
    | nonRec =>
      have := hall _ hr
      simp [PyRow.isRec] at this
    | obj e =>
      rw [← hrfl]
      exact hash_row_ne_empty e
  have hstore1_ne : "" ∉ store1 := by
    intro hmem
    rcases hmem1 _ hmem with h1 | h2
    · exact hstore h1
    · exact hhash_ne _ h2 rfl
  have hfilter1 : store1.filter (fun h => h ≠ "") = store1 := by
    rw [List.filter_eq_self]
    intro a ha
    simp only [decide_eq_true_eq]
    intro he
    exact hstore1_ne (he ▸ ha)
  have hE1 : store1.toFinset = I := by
    rw [hstore1, List.toFinset_append, List.toFinset_filter, List.toFinset_filter]
    have h1 : E.filter (fun h => decide (h ∉ E \ I) = true) = E ∩ I := by
      ext x
      simp only [Finset.mem_filter, decide_eq_true_eq, Finset.mem_sdiff, Finset.mem_inter]
      tauto
    have h2 : I.filter (fun h => decide (h ∉ E) = true) = I \ E := by
      ext x
      simp only [Finset.mem_filter, decide_eq_true_eq, Finset.mem_sdiff]
    rw [h1, h2]
    ext x
    simp only [Finset.mem_union, Finset.mem_inter, Finset.mem_sdiff]
    tauto
  refine ⟨rfl, rfl, ?_, ?_, ?_⟩
  · intro hnodup
    exact filter_not_mem_length (rows.map PyRow.hashOf) E hnodup
  · rw [ingest_rows_incremental store1 rows hkeys, incrementalSync_ok store1 rows hall,
      hfilter1, hE1]
    have : (rows.map PyRow.hashOf).filter (fun h => h ∉ I) = [] := by
      rw [List.filter_eq_nil_iff]
      intro a ha
      simp only [decide_eq_true_eq, Decidable.not_not]
      exact List.mem_toFinset.2 ha
    rw [this]
    rfl
  · rw [ingest_rows_incremental store1 rows hkeys, incrementalSync_ok store1 rows hall,
      hfilter1, hE1]
    simp

/-- Witness for the amended C1. -/
theorem rows_incremental_sync_spec_witness :
    (ingest_rows ["aa"] [PyRow.obj [("k", JVal.null)]] false).error = none ∧
    (ingest_rows ["aa"] [PyRow.obj [("k", JVal.null)]] false).rows_deleted =
      some (((["aa"] : List String).toFinset \
        ([PyRow.obj [("k", JVal.null)]].map PyRow.hashOf).toFinset).card) ∧
    (ingest_rows ["aa"] [PyRow.obj [("k", JVal.null)]] false).rows_inserted =
      (([PyRow.obj [("k", JVal.null)]].map PyRow.hashOf).toFinset \
        (["aa"] : List String).toFinset).card ∧
    (ingest_rows (ingest_rows ["aa"] [PyRow.obj [("k", JVal.null)]] false).store
      [PyRow.obj [("k", JVal.null)]] false).rows_inserted = 0 ∧
    (ingest_rows (ingest_rows ["aa"] [PyRow.obj [("k", JVal.null)]] false).store
      [PyRow.obj [("k", JVal.null)]] false).rows_deleted = some 0 :=
  have h := rows_incremental_sync_spec ["aa"] [PyRow.obj [("k", JVal.null)]]
    (by decide) (by decide) (by decide)
  ⟨h.1, h.2.1, h.2.2.1 (by simp), h.2.2.2.1, h.2.2.2.2⟩

/-! ### C3 — validation atomicity -/

/-- C3 counterexample: a full-refresh batch holding one valid row and
one non-record fails with the malformed-input error, but only after the
delete-all and the insert of the valid row — the row store is mutated
(here it shrinks from two stored rows to one). -/
theorem full_refresh_mutates_before_validation :
    (ingest_rows ["h1", "h2"] [PyRow.obj [("a", JVal.null)], PyRow.nonRec]
        true).error.isSome = true ∧
    (ingest_rows ["h1", "h2"] [PyRow.obj [("a", JVal.null)], PyRow.nonRec]
        true).store ≠ ["h1", "h2"] := by
  rw [ingest_rows_full _ _ (by decide)]
  constructor
  · rfl
  · intro h
    have := congrArg List.length h
    simp [fullRefreshLoop] at this

/-- C3 amended: a batch containing a non-record element always aborts
the call with a malformed-input error in both modes; in incremental
mode validation happens during fingerprinting, before any read or
write, so the row store is untouched and nothing is inserted — but in
full-refresh mode the error is raised inside the insert loop, after the
delete phase (and after inserting the valid prefix), so the row store
may be mutated. -/
theorem rows_validation_aborts (store : List String) (rows : List PyRow)
    (hbad : PyRow.nonRec ∈ rows) :
    ((ingest_rows store rows false).error.isSome = true ∧
     (ingest_rows store rows false).store = store ∧
     (ingest_rows store rows false).rows_inserted = 0) ∧
    (ingest_rows store rows true).error.isSome = true := by
  by_cases hsch : pyDedup (rows.flatMap PyRow.keys) = []
  · have h1 : ingest_rows store rows false =
        ⟨store, some "Rows must be JSON objects with at least one key.", 0, none⟩ := by
      rw [ingest_rows]
      simp only [if_pos hsch]
    have h2 : ingest_rows store rows true =
        ⟨store, some "Rows must be JSON objects with at least one key.", 0, none⟩ := by
      rw [ingest_rows]
      simp only [if_pos hsch]
    rw [h1, h2]
    exact ⟨⟨rfl, rfl, rfl⟩, rfl⟩
  · obtain ⟨m, hm⟩ := hashRowsLoop_error rows hbad
    refine ⟨?_, ?_⟩
    · rw [ingest_rows_incremental store rows hsch, incrementalSync, hm]
      exact ⟨rfl, rfl, rfl⟩
    · rw [ingest_rows_full store rows hsch]
      exact fullRefreshLoop_error rows hbad [] 0

/-- Witness for the amended C3. -/
theorem rows_validation_aborts_witness :
    ((ingest_rows ["x"] [PyRow.nonRec] false).error.isSome = true ∧
     (ingest_rows ["x"] [PyRow.nonRec] false).store = ["x"] ∧
     (ingest_rows ["x"] [PyRow.nonRec] false).rows_inserted = 0) ∧
    (ingest_rows ["x"] [PyRow.nonRec] true).error.isSome = true :=
  rows_validation_aborts ["x"] [PyRow.nonRec] (by decide)

end S34
